import Mathlib

/-!
Shallow embedding of the vanadium user agent (src/main.rs).

Rust strings are modelled as lists of characters (`Str`); byte positions
returned by `str::find` are recovered through `Char.utf8Size`.  Functions
that can panic in the source are modelled with `Option`/`Except`; network
and file effects are abstracted into explicit oracles and state values.
-/

abbrev Str := List Char

/-- Models `str::split_once(c)`: split at the first occurrence of the
character `c`; `none` when `c` does not occur. -/
def splitOnceChar (c : Char) : Str → Option (Str × Str)
  | [] => none
  | x :: xs =>
    if x = c then some ([], xs)
    else (splitOnceChar c xs).map fun p => (x :: p.1, p.2)

/-- Models `str::split_once(sep)` for a multi-character separator. -/
def splitOnceSub (sep : Str) : Str → Option (Str × Str)
  | [] => if sep.isPrefixOf ([] : Str) then some ([], []) else none
  | x :: xs =>
    if sep.isPrefixOf (x :: xs) then some ([], (x :: xs).drop sep.length)
    else (splitOnceSub sep xs).map fun p => (x :: p.1, p.2)

/-- Models `str::contains(c)`. -/
def hasChar (c : Char) (s : Str) : Bool := s.any fun x => x = c

/-- Models `str::starts_with(c)`. -/
def startsWithChar (c : Char) (s : Str) : Bool :=
  match s with
  | [] => false
  | x :: _ => x = c

/-- Accumulates the numeric value of a decimal digit string. -/
def digitsValAux : Str → Nat → Option Nat
  | [], acc => some acc
  | c :: cs, acc =>
    if c.isDigit then digitsValAux cs (acc * 10 + (c.toNat - 48)) else none

/-- Value of a non-empty all-decimal-digit string. -/
def digitsVal : Str → Option Nat
  | [] => none
  | c :: cs => digitsValAux (c :: cs) 0

/-- Models Rust's integer parsing: an optional leading `+` sign followed by
at least one decimal digit. -/
def stripPlus : Str → Str
  | '+' :: r => r
  | s => s

/-- Models `str::parse::<u16>()`. -/
def parseU16 (s : Str) : Option Nat :=
  (digitsVal (stripPlus s)).bind fun n => if n ≤ 65535 then some n else none

/-- Models `str::parse::<usize>()` on a 64-bit target. -/
def parseUsize (s : Str) : Option Nat :=
  (digitsVal (stripPlus s)).bind fun n =>
    if n ≤ 18446744073709551615 then some n else none

/-- Models `str::to_lowercase` restricted to the ASCII header names the
program compares against. -/
def lowerStr (s : Str) : Str := s.map Char.toLower

/-- Models `str::trim`. -/
def trimStr (s : Str) : Str :=
  ((s.dropWhile Char.isWhitespace).reverse.dropWhile Char.isWhitespace).reverse

/-- Models `str::trim_end`. -/
def trimEndStr (s : Str) : Str :=
  (s.reverse.dropWhile Char.isWhitespace).reverse

/-- UTF-8 byte length of a character list, as used by `str::find` byte
indices. -/
def utf8Len (s : Str) : Nat := (s.map Char.utf8Size).sum

/-- The `Url` enum of src/main.rs with `PathBuf` fields stored as plain
strings.  The `DecidableEq` derived here is Lean's structural equality
on those strings; the equality the source derives (`PartialEq`, which
compares the `PathBuf` fields by components) is modelled separately by
`urlEq` below and is the one `load` uses for cycle detection. -/
inductive Url
  | Http (view_source : Bool) (addr : Str × Nat) (path : Str)
  | Https (view_source : Bool) (addr : Str × Nat) (path : Str)
  | File (view_source : Bool) (path : Str)
  | Data (view_source : Bool) (media_type : Str) (content : Str)
deriving DecidableEq

/-- `Url::view_source`. -/
def Url.view_source : Url → Bool
  | .Http vs _ _ => vs
  | .Https vs _ _ => vs
  | .File vs _ => vs
  | .Data vs _ _ => vs

/-- Components of a Unix path as Rust's `Path::components` yields them:
repeated separators collapse, `.` segments vanish except a leading one,
`..` segments are kept, and a trailing separator adds nothing. -/
inductive PathComponent
  | rootDir
  | curDir
  | parentDir
  | normal (s : Str)
deriving DecidableEq

/-- Splits a path at every `/`, keeping empty segments. -/
def splitSegsAux : Str → Str → List Str
  | [], cur => [cur.reverse]
  | c :: cs, cur =>
    if c = '/' then cur.reverse :: splitSegsAux cs []
    else splitSegsAux cs (c :: cur)

def splitSegs (s : Str) : List Str := splitSegsAux s []

/-- Normalizes the segments of a path: empty and `.` segments disappear,
`..` stays as `ParentDir`, anything else is a `Normal` component. -/
def segComponents (segs : List Str) : List PathComponent :=
  segs.filterMap fun s =>
    if s = [] then none
    else if s = ['.'] then none
    else if s = ['.', '.'] then some .parentDir
    else some (.normal s)

/-- `Path::components` on Unix (the source never builds Windows
prefixes): a leading `/` is `RootDir`; a leading `.` segment of a
rootless path is `CurDir`; the remaining segments are normalized by
`segComponents`. -/
def pathComponents (p : Str) : List PathComponent :=
  (if startsWithChar '/' p then [PathComponent.rootDir] else [])
    ++ (match p with
        | ['.'] => [PathComponent.curDir]
        | '.' :: '/' :: _ => [PathComponent.curDir]
        | _ => [])
    ++ segComponents (splitSegs p)

/-- `PathBuf`'s `PartialEq`: component-wise comparison, under which
`/x/`, `/x//` and `/x/.` all equal `/x`. -/
def pathEq (a b : Str) : Bool := pathComponents a == pathComponents b

/-- The `PartialEq` derived for `Url` in the source: field-wise
equality, with the `PathBuf` fields compared by components via
`pathEq`.  This is the equality `Vec::contains` applies in `load`. -/
def urlEq : Url → Url → Bool
  | .Http v1 a1 p1, .Http v2 a2 p2 => v1 == v2 && a1 == a2 && pathEq p1 p2
  | .Https v1 a1 p1, .Https v2 a2 p2 => v1 == v2 && a1 == a2 && pathEq p1 p2
  | .File v1 p1, .File v2 p2 => v1 == v2 && pathEq p1 p2
  | .Data v1 m1 c1, .Data v2 m2 c2 => v1 == v2 && m1 == m2 && c1 == c2
  | _, _ => false

/-- The `match scheme { "http" => 80, "https" => 443, _ => panic }` step of
`Url::new`. -/
def schemePort (scheme : Str) : Option Nat :=
  if scheme = "http".toList then some 80
  else if scheme = "https".toList then some 443
  else none

/-- The `url.strip_prefix("view-source:").unwrap_or(url)` step of
`Url::new`; `12` is the length of `"view-source:"`. -/
def stripViewSource (url : Str) : Str :=
  if ("view-source:".toList).isPrefixOf url then url.drop 12 else url

/-- `Url::new`.  `none` models the panics of the source (a failing
`unwrap` on the comma or `"://"` split, an unsupported scheme, or an
unparsable port).  `5` is the length of the stripped `"data:"` prefix. -/
def Url.new (url : Str) : Option Url :=
  let view_source := ("view-source:".toList).isPrefixOf url
  let url1 := stripViewSource url
  if ("data:".toList).isPrefixOf url1 then
    match splitOnceChar ',' (url1.drop 5) with
    | none => none
    | some (media_type, content) => some (.Data view_source media_type content)
  else
    match splitOnceSub ("://".toList) url1 with
    | none => none
    | some (scheme, rest) =>
      if scheme = "file".toList then some (.File view_source rest)
      else
        let remainder := if hasChar '/' rest then rest else rest ++ ['/']
        match splitOnceChar '/' remainder with
        | none => none
        | some (host, path) =>
          match schemePort scheme with
          | none => none
          | some port0 =>
            match (if hasChar ':' host then
                     match splitOnceChar ':' host with
                     | none => none
                     | some (h, p) => (parseU16 p).map fun pn => (h, pn)
                   else some (host, port0)) with
            | none => none
            | some (host2, port) =>
              if scheme = "http".toList then
                some (.Http view_source (host2, port) ('/' :: path))
              else if scheme = "https".toList then
                some (.Https view_source (host2, port) ('/' :: path))
              else none

/-- `Url::follow`.  `none` models the panic on the `File`/`Data` variants;
the non-`/` branch re-parses the location via `Url::new`. -/
def Url.follow (u : Url) (location : Str) : Option Url :=
  match u with
  | .Http _ addr _ =>
    if startsWithChar '/' location then some (.Http false addr location)
    else Url.new location
  | .Https _ addr _ =>
    if startsWithChar '/' location then some (.Https false addr location)
    else Url.new location
  | _ => none

/-- The `Response` enum. -/
inductive Response
  | Ok (body : Str)
  | Redirect (location : Str)
deriving DecidableEq

/-- `Response::is_redirect`. -/
def Response.is_redirect (status : Nat) : Bool :=
  status = 301 ∨ status = 302 ∨ status = 303 ∨ status = 307 ∨ status = 308

/-- Result of `read_entity`: the payload `Nat` is the byte index the
source returns (`i - 1` for a match, `i` for an unsupported entity, where
`i` is the byte index of the first `;`). -/
inductive EntityRead
  | ok (j : Nat) (ent : Str)
  | unsupported (j : Nat)
  | eof
deriving DecidableEq

/-- `read_entity`.  The source asserts its argument starts with `&`,
which holds at the only call site (`show`); past the assert the body does
not depend on the first character, so the function is total here.
`body.find(';')` returns a byte index, recovered as `utf8Len pre` where
`pre` is the part before the first `;`; `body[1..i]` is `pre` without the
leading `&`. -/
def read_entity (body : Str) : EntityRead :=
  match splitOnceChar ';' body with
  | none => .eof
  | some (pre, _) =>
    let i := utf8Len pre
    if pre.drop 1 = "lt".toList then .ok (i - 1) "<".toList
    else if pre.drop 1 = "gt".toList then .ok (i - 1) ">".toList
    else .unsupported i

/-- The slice `&body[i..=(i + j)]` printed for an unsupported entity:
everything from the `&` through the first `;` inclusive (the byte `i + j`
is the position of that `;`). -/
def takeThroughSemi (s : Str) : Str :=
  match splitOnceChar ';' s with
  | some (pre, _) => pre ++ [';']
  | none => s

/-- The loop of `show`.  The third argument counts characters still to be
consumed silently, modelling `chars.nth(j)` (which consumes `j + 1`
iterator elements).  In the `Eof` case the source prints the whole
remaining slice and then skips past its byte length, which always
exhausts the iterator, so the scan terminates there. -/
def showAux : Str → Bool → Nat → Str
  | [], _, _ => []
  | _ :: cs, in_tag, k + 1 => showAux cs in_tag k
  | c :: cs, in_tag, 0 =>
    if c = '<' then showAux cs true 0
    else if c = '>' then showAux cs false 0
    else if c = '&' then
      match read_entity (c :: cs) with
      | .ok j ent => ent ++ showAux cs in_tag (j + 1)
      | .eof => c :: cs
      | .unsupported j => takeThroughSemi (c :: cs) ++ showAux cs in_tag (j + 1)
    else if !in_tag then c :: showAux cs in_tag 0
    else showAux cs in_tag 0

/-- `show`, with the printed output collected into a string. -/
def showBody (body : Str) : Str := showAux body false 0

/-- Models `str::lines`: split at `\n`, stripping one `\r` directly
before each `\n`; a final segment without a terminator is kept as-is, and
a trailing terminator produces no extra empty line. -/
def stripTrailingCR (l : Str) : Str :=
  match l.reverse with
  | '\r' :: r => r.reverse
  | _ => l

def splitLinesAux : Str → Str → List Str
  | [], cur => if cur = [] then [] else [cur.reverse]
  | c :: rest, cur =>
    if c = '\n' then stripTrailingCR cur.reverse :: splitLinesAux rest []
    else splitLinesAux rest (c :: cur)

def splitLines (s : Str) : List Str := splitLinesAux s []

/-- `{number:>6}`: decimal digits right-aligned to width 6. -/
def padLeft6 (n : Nat) : Str :=
  let d := Nat.toDigits 10 n
  List.replicate (6 - d.length) ' ' ++ d

/-- The numbered lines of `show_source`, starting at `n`. -/
def showSourceAux : Nat → List Str → Str
  | _, [] => []
  | n, l :: ls => padLeft6 n ++ ' ' :: l ++ '\n' :: showSourceAux (n + 1) ls

/-- `show_source`, with the printed output collected into a string. -/
def show_source (body : Str) : Str := showSourceAux 1 (splitLines body)

/-- The failure modes of `Url::read_response`; each constructor stands
for one `unwrap`/`expect`/`assert` in the source. -/
inductive FetchErr
  | MalformedStatus
  | MalformedHeader
  | UnsupportedEncoding
  | MissingContentLength
  | BadContentLength
  | BodyTooShort
  | MissingLocation
  | InvalidEncoding
deriving DecidableEq

/-- The status-line step: `splitn(3, ' ')` discards the version and the
explanation (both must exist or the source panics) and parses the middle
part as a `u16`. -/
def parseStatus (sl : Str) : Option Nat :=
  (splitOnceChar ' ' sl).bind fun v =>
    (splitOnceChar ' ' v.2).bind fun st => parseU16 st.1

/-- `HashMap::insert`: replaces the value of an existing key, otherwise
appends the binding. -/
def insertHeader (m : List (Str × Str)) (k v : Str) : List (Str × Str) :=
  if m.any (fun p => p.1 = k) then
    m.map fun p => if p.1 = k then (k, v) else p
  else m ++ [(k, v)]

/-- `HashMap::contains_key`. -/
def containsKey (m : List (Str × Str)) (k : Str) : Bool :=
  m.any fun p => p.1 = k

/-- `HashMap::get`. -/
def lookupH (m : List (Str × Str)) (k : Str) : Option Str :=
  (m.find? fun p => p.1 = k).map Prod.snd

/-- The header loop of `read_response`: read lines until a blank one (or
end of input, where `read_line` yields an empty line); each line must
contain a `:` or the source panics; names are lower-cased and values
trimmed. -/
def processHeaders : List Str → List (Str × Str) → Option (List (Str × Str))
  | [], m => some m
  | line :: rest, m =>
    if trimEndStr line = [] then some m
    else
      match splitOnceChar ':' line with
      | none => none
      | some (h, v) => processHeaders rest (insertHeader m (lowerStr h) (trimStr v))

/-- Strict UTF-8 decoding of a byte list, as `String::from_utf8`:
rejects stray continuation bytes, overlong forms, surrogates and values
above `0x10FFFF`. -/
def isCont (b : Nat) : Bool := 0x80 ≤ b ∧ b ≤ 0xBF

def utf8Decode : List Nat → Option Str
  | [] => some []
  | b :: rest =>
    if b ≤ 0x7F then
      (utf8Decode rest).map fun s => Char.ofNat b :: s
    else if b < 0xC2 then none
    else if b ≤ 0xDF then
      match rest with
      | b1 :: r =>
        if isCont b1 then
          (utf8Decode r).map fun s => Char.ofNat ((b - 0xC0) * 64 + (b1 - 0x80)) :: s
        else none
      | _ => none
    else if b ≤ 0xEF then
      match rest with
      | b1 :: b2 :: r =>
        if (if b = 0xE0 then 0xA0 ≤ b1 ∧ b1 ≤ 0xBF
            else if b = 0xED then 0x80 ≤ b1 ∧ b1 ≤ 0x9F
            else isCont b1 = true) ∧ isCont b2 then
          (utf8Decode r).map fun s =>
            Char.ofNat ((b - 0xE0) * 4096 + (b1 - 0x80) * 64 + (b2 - 0x80)) :: s
        else none
      | _ => none
    else if b ≤ 0xF4 then
      match rest with
      | b1 :: b2 :: b3 :: r =>
        if (if b = 0xF0 then 0x90 ≤ b1 ∧ b1 ≤ 0xBF
            else if b = 0xF4 then 0x80 ≤ b1 ∧ b1 ≤ 0x8F
            else isCont b1 = true) ∧ isCont b2 ∧ isCont b3 then
          (utf8Decode r).map fun s =>
            Char.ofNat ((b - 0xF0) * 262144 + (b1 - 0x80) * 4096
              + (b2 - 0x80) * 64 + (b3 - 0x80)) :: s
        else none
      | _ => none
    else none

/-- `Url::read_response`, over a structured view of the wire data: the
status line, the header lines that follow it, and the raw bytes available
for the body.  Every panic of the source is an explicit `FetchErr`. -/
def read_response (statusLine : Str) (headerLines : List Str)
    (body : List Nat) : Except FetchErr Response :=
  match parseStatus statusLine with
  | none => .error .MalformedStatus
  | some status =>
    match processHeaders headerLines [] with
    | none => .error .MalformedHeader
    | some hdrs =>
      if containsKey hdrs "transfer-encoding".toList then .error .UnsupportedEncoding
      else if containsKey hdrs "content-encoding".toList then .error .UnsupportedEncoding
      else
        match lookupH hdrs "content-length".toList with
        | none => .error .MissingContentLength
        | some clv =>
          match parseUsize clv with
          | none => .error .BadContentLength
          | some n =>
            if body.length < n then .error .BodyTooShort
            else
              if Response.is_redirect status then
                match lookupH hdrs "location".toList with
                | none => .error .MissingLocation
                | some loc => .ok (.Redirect loc)
              else
                match utf8Decode (body.take n) with
                | none => .error .InvalidEncoding
                | some s => .ok (.Ok s)

/-- `RequestContext`: the per-authority connection cache.  A transport
(`BufReader<RequestStream>` in the source) is modelled by the numeric
identity of its construction; `next` is the identity the next
`build_reader` call would create, so distinct constructions always carry
distinct identities. -/
structure RequestContext where
  inner : List ((Str × Nat) × Nat)
  next : Nat
deriving DecidableEq

/-- The authority of a network locator (`addr` of `Http`/`Https`). -/
def Url.addr? : Url → Option (Str × Nat)
  | .Http _ a _ => some a
  | .Https _ a _ => some a
  | _ => none

/-- `contains_key` on the cache map. -/
def cacheContains (m : List ((Str × Nat) × Nat)) (a : Str × Nat) : Bool :=
  m.any fun p => p.1 = a

/-- `get_mut` on the cache map. -/
def cacheLookup : List ((Str × Nat) × Nat) → (Str × Nat) → Option Nat
  | [], _ => none
  | p :: ps, a => if p.1 = a then some p.2 else cacheLookup ps a

/-- `RequestContext::reader`: `none` models the panic on non-network
locators; otherwise the cached transport for the authority is returned,
building and inserting a fresh one first when the authority is absent. -/
def RequestContext.reader (ctx : RequestContext) (u : Url) :
    Option (Nat × RequestContext) :=
  match u.addr? with
  | none => none
  | some addr =>
    if cacheContains ctx.inner addr then
      (cacheLookup ctx.inner addr).map fun t => (t, ctx)
    else
      some (ctx.next, ⟨ctx.inner ++ [(addr, ctx.next)], ctx.next + 1⟩)

/-- Well-formedness of the cache state: every cached identity predates
`next`, authorities are distinct (at most one transport per authority)
and identities are distinct. -/
def RequestContext.wf (ctx : RequestContext) : Prop :=
  (∀ p ∈ ctx.inner, p.2 < ctx.next) ∧
  (ctx.inner.map Prod.fst).Nodup ∧
  (ctx.inner.map Prod.snd).Nodup

instance (ctx : RequestContext) : Decidable ctx.wf := by
  unfold RequestContext.wf; infer_instance

/-- The outcome of one `load` call.  `Shown`/`Sourced` carry the rendered
output of `show`/`show_source`; the remaining constructors are the
asserted failures of the loop, and `Aborted` models a panic raised inside
`Url::follow`. -/
inductive LoadResult
  | Shown (out : Str)
  | Sourced (out : Str)
  | RedirectCycle
  | TooManyRedirects
  | Aborted
deriving DecidableEq

def MAX_REDIRECTS : Nat := 10

/-- The loop of `load`.  `resp` abstracts `head.request(ctx)` (the
network/file/data fetch); `head` is the last element of `path` at every
call, as in the source where `head = path.last().unwrap()`.  The cycle
check `path.contains(&follower)` applies the derived `PartialEq` of
`Url`, modelled by `urlEq` (paths compared by components).  The source
pushes the follower and then asserts `path.len() < MAX_REDIRECTS` before
looping. -/
def loadLoop (resp : Url → Response) (view_source : Bool)
    (head : Url) (path : List Url) : LoadResult :=
  match resp head with
  | .Ok body => if view_source then .Sourced (show_source body) else .Shown (showBody body)
  | .Redirect location =>
    match head.follow location with
    | none => .Aborted
    | some follower =>
      if path.any (fun u => urlEq u follower) then .RedirectCycle
      else if path.length + 1 < MAX_REDIRECTS then
        loadLoop resp view_source follower (path ++ [follower])
      else .TooManyRedirects
termination_by MAX_REDIRECTS - path.length
decreasing_by simp [MAX_REDIRECTS] at *; omega

/-- `load`: captures `view_source` from the original locator and starts
the visited path with it. -/
def load (resp : Url → Response) (url : Url) : LoadResult :=
  loadLoop resp url.view_source url [url]

/-- A redirect chain under the oracle `resp`: each locator responds with
a redirect whose `follow` yields the next locator in the list. -/
def RedirectChain (resp : Url → Response) : List Url → Prop
  | [] => True
  | [_] => True
  | u :: v :: rest =>
    (∃ loc, resp u = .Redirect loc ∧ u.follow loc = some v) ∧
      RedirectChain resp (v :: rest)

/-- Concrete locators for exercising the redirect loop: the `i`-th one
lives on host `h`, port 80, with path `/` followed by `i` copies of `a`,
so its path has length `i + 1`. -/
def chainUrl (i : Nat) : Url := .Http false ("h".toList, 80) ('/' :: List.replicate i 'a')

/-- An oracle whose redirect chain walks `chainUrl 0`, `chainUrl 1`, …
and completes with `Ok` only once the path has 10 characters, i.e. at
`chainUrl 9` — a chain of exactly 9 redirects. -/
def chainResp : Url → Response := fun u =>
  match u with
  | .Http _ _ p =>
    if 10 ≤ p.length then .Ok "done".toList
    else .Redirect ('/' :: List.replicate p.length 'a')
  | _ => .Ok []

/-- An oracle as `chainResp` but completing once the path has 3
characters, i.e. at `chainUrl 2` — a chain of exactly 2 redirects. -/
def chainResp2 : Url → Response := fun u =>
  match u with
  | .Http _ _ p =>
    if 3 ≤ p.length then .Ok "done".toList
    else .Redirect ('/' :: List.replicate p.length 'a')
  | _ => .Ok []

theorem splitOnceChar_append (c : Char) (a b : Str) (h : c ∉ a) :
    splitOnceChar c (a ++ c :: b) = some (a, b) := by
  induction a with
  | nil => simp [splitOnceChar]
  | cons x xs ih =>
    have hx : ¬ x = c := fun e => h (by simp [e])
    have hxs : c ∉ xs := fun hm => h (List.mem_cons_of_mem _ hm)
    simp [splitOnceChar, hx, ih hxs]

theorem splitOnceChar_eq_none (c : Char) (s : Str) (h : c ∉ s) :
    splitOnceChar c s = none := by
  induction s with
  | nil => rfl
  | cons x xs ih =>
    have hx : ¬ x = c := fun e => h (by simp [e])
    have hxs : c ∉ xs := fun hm => h (List.mem_cons_of_mem _ hm)
    simp [splitOnceChar, hx, ih hxs]

theorem hasChar_eq_false (c : Char) (s : Str) (h : c ∉ s) : hasChar c s = false := by
  simp only [hasChar, List.any_eq_false, decide_eq_true_eq]
  intro x hx e
  exact h (e ▸ hx)

theorem hasChar_eq_true (c : Char) (s : Str) (h : c ∈ s) : hasChar c s = true := by
  simp only [hasChar, List.any_eq_true, decide_eq_true_eq]
  exact ⟨c, h, rfl⟩

theorem isPrefixOf_self_append (a b : Str) : a.isPrefixOf (a ++ b) = true := by
  induction a with
  | nil => simp [List.isPrefixOf]
  | cons x xs ih => simp [List.isPrefixOf, ih]

theorem url_new_http_unfold (R : Str) :
    Url.new ('h' :: 't' :: 't' :: 'p' :: ':' :: '/' :: '/' :: R) =
      (match splitOnceChar '/' (if hasChar '/' R then R else R ++ ['/']) with
       | none => none
       | some (host, path) =>
         match (if hasChar ':' host then
                  match splitOnceChar ':' host with
                  | none => none
                  | some (h, p) => (parseU16 p).map fun pn => (h, pn)
                else some (host, 80)) with
         | none => none
         | some (host2, port) => some (.Http false (host2, port) ('/' :: path))) := by
  simp [Url.new, stripViewSource, List.isPrefixOf, splitOnceSub, schemePort]

theorem url_new_https_unfold (R : Str) :
    Url.new ('h' :: 't' :: 't' :: 'p' :: 's' :: ':' :: '/' :: '/' :: R) =
      (match splitOnceChar '/' (if hasChar '/' R then R else R ++ ['/']) with
       | none => none
       | some (host, path) =>
         match (if hasChar ':' host then
                  match splitOnceChar ':' host with
                  | none => none
                  | some (h, p) => (parseU16 p).map fun pn => (h, pn)
                else some (host, 443)) with
         | none => none
         | some (host2, port) => some (.Https false (host2, port) ('/' :: path))) := by
  simp [Url.new, stripViewSource, List.isPrefixOf, splitOnceSub, schemePort]

theorem url_new_http_noslash (host : Str) (hc : ':' ∉ host) (hs : '/' ∉ host) :
    Url.new ('h' :: 't' :: 't' :: 'p' :: ':' :: '/' :: '/' :: host) = some (.Http false (host, 80) ['/']) := by
  rw [url_new_http_unfold]
  simp [hasChar_eq_false _ _ hs, hasChar_eq_false _ _ hc,
    splitOnceChar_append '/' host [] hs]

theorem url_new_https_noslash (host : Str) (hc : ':' ∉ host) (hs : '/' ∉ host) :
    Url.new ('h' :: 't' :: 't' :: 'p' :: 's' :: ':' :: '/' :: '/' :: host) = some (.Https false (host, 443) ['/']) := by
  rw [url_new_https_unfold]
  simp [hasChar_eq_false _ _ hs, hasChar_eq_false _ _ hc,
    splitOnceChar_append '/' host [] hs]

theorem url_new_http_slash (host rest : Str) (hc : ':' ∉ host) (hs : '/' ∉ host) :
    Url.new ('h' :: 't' :: 't' :: 'p' :: ':' :: '/' :: '/' :: (host ++ '/' :: rest))
      = some (.Http false (host, 80) ('/' :: rest)) := by
  rw [url_new_http_unfold]
  have h1 : hasChar '/' (host ++ '/' :: rest) = true := hasChar_eq_true _ _ (by simp)
  simp [h1, splitOnceChar_append '/' host rest hs, hasChar_eq_false _ _ hc]

theorem url_new_https_slash (host rest : Str) (hc : ':' ∉ host) (hs : '/' ∉ host) :
    Url.new ('h' :: 't' :: 't' :: 'p' :: 's' :: ':' :: '/' :: '/' :: (host ++ '/' :: rest))
      = some (.Https false (host, 443) ('/' :: rest)) := by
  rw [url_new_https_unfold]
  have h1 : hasChar '/' (host ++ '/' :: rest) = true := hasChar_eq_true _ _ (by simp)
  simp [h1, splitOnceChar_append '/' host rest hs, hasChar_eq_false _ _ hc]

theorem url_new_http_port (host pd rest : Str) (p : Nat)
    (hc : ':' ∉ host) (hs : '/' ∉ host) (hpd : '/' ∉ pd) (hp : parseU16 pd = some p) :
    Url.new ('h' :: 't' :: 't' :: 'p' :: ':' :: '/' :: '/' :: (host ++ ':' :: (pd ++ '/' :: rest)))
      = some (.Http false (host, p) ('/' :: rest)) := by
  rw [url_new_http_unfold]
  have hassoc : host ++ ':' :: (pd ++ '/' :: rest) = (host ++ ':' :: pd) ++ '/' :: rest := by
    simp
  have hnos : '/' ∉ host ++ ':' :: pd := by
    simp only [List.mem_append, List.mem_cons]
    rintro (h | h | h)
    · exact hs h
    · exact absurd h (by decide)
    · exact hpd h
  have h1 : hasChar '/' (host ++ ':' :: (pd ++ '/' :: rest)) = true :=
    hasChar_eq_true _ _ (by simp)
  have h2 : hasChar ':' (host ++ ':' :: pd) = true := hasChar_eq_true _ _ (by simp)
  rw [h1, if_pos rfl, hassoc, splitOnceChar_append '/' _ rest hnos]
  simp [h2, splitOnceChar_append ':' host pd hc, hp]

theorem url_new_https_port (host pd rest : Str) (p : Nat)
    (hc : ':' ∉ host) (hs : '/' ∉ host) (hpd : '/' ∉ pd) (hp : parseU16 pd = some p) :
    Url.new ('h' :: 't' :: 't' :: 'p' :: 's' :: ':' :: '/' :: '/' :: (host ++ ':' :: (pd ++ '/' :: rest)))
      = some (.Https false (host, p) ('/' :: rest)) := by
  rw [url_new_https_unfold]
  have hassoc : host ++ ':' :: (pd ++ '/' :: rest) = (host ++ ':' :: pd) ++ '/' :: rest := by
    simp
  have hnos : '/' ∉ host ++ ':' :: pd := by
    simp only [List.mem_append, List.mem_cons]
    rintro (h | h | h)
    · exact hs h
    · exact absurd h (by decide)
    · exact hpd h
  have h1 : hasChar '/' (host ++ ':' :: (pd ++ '/' :: rest)) = true :=
    hasChar_eq_true _ _ (by simp)
  have h2 : hasChar ':' (host ++ ':' :: pd) = true := hasChar_eq_true _ _ (by simp)
  rw [h1, if_pos rfl, hassoc, splitOnceChar_append '/' _ rest hnos]
  simp [h2, splitOnceChar_append ':' host pd hc, hp]

/-- C5: for every http/https input to `parse` (`Url::new`), the port
defaults to 80 for http and 443 for https, an explicit `host:port`
authority overrides the default, and when no `/` follows the authority
the path is `/`; otherwise the path is everything after the first `/`
re-prefixed with `/`. -/
theorem url_new_http_https (host rest pd : Str) (p : Nat)
    (hc : ':' ∉ host) (hs : '/' ∉ host) (hpd : '/' ∉ pd) (hp : parseU16 pd = some p) :
    Url.new ("http://".toList ++ host) = some (.Http false (host, 80) "/".toList) ∧
    Url.new ("https://".toList ++ host) = some (.Https false (host, 443) "/".toList) ∧
    Url.new ("http://".toList ++ host ++ "/".toList ++ rest)
      = some (.Http false (host, 80) ('/' :: rest)) ∧
    Url.new ("https://".toList ++ host ++ "/".toList ++ rest)
      = some (.Https false (host, 443) ('/' :: rest)) ∧
    Url.new ("http://".toList ++ host ++ ":".toList ++ pd ++ "/".toList ++ rest)
      = some (.Http false (host, p) ('/' :: rest)) ∧
    Url.new ("https://".toList ++ host ++ ":".toList ++ pd ++ "/".toList ++ rest)
      = some (.Https false (host, p) ('/' :: rest)) := by
  simp only [List.append_assoc]
  exact ⟨url_new_http_noslash host hc hs, url_new_https_noslash host hc hs,
    url_new_http_slash host rest hc hs, url_new_https_slash host rest hc hs,
    url_new_http_port host pd rest p hc hs hpd hp,
    url_new_https_port host pd rest p hc hs hpd hp⟩

/-- Witness for C5 at the spec's own examples (`example.com`, port 8443,
path `/a/b`). -/
theorem url_new_http_https_witness :
    Url.new ("http://".toList ++ "example.com".toList)
      = some (.Http false ("example.com".toList, 80) "/".toList) ∧
    Url.new ("https://".toList ++ "example.com".toList)
      = some (.Https false ("example.com".toList, 443) "/".toList) ∧
    Url.new ("http://".toList ++ "example.com".toList ++ "/".toList ++ "a/b".toList)
      = some (.Http false ("example.com".toList, 80) ('/' :: "a/b".toList)) ∧
    Url.new ("https://".toList ++ "example.com".toList ++ "/".toList ++ "a/b".toList)
      = some (.Https false ("example.com".toList, 443) ('/' :: "a/b".toList)) ∧
    Url.new ("http://".toList ++ "example.com".toList ++ ":".toList ++ "8443".toList
        ++ "/".toList ++ "a/b".toList)
      = some (.Http false ("example.com".toList, 8443) ('/' :: "a/b".toList)) ∧
    Url.new ("https://".toList ++ "example.com".toList ++ ":".toList ++ "8443".toList
        ++ "/".toList ++ "a/b".toList)
      = some (.Https false ("example.com".toList, 8443) ('/' :: "a/b".toList)) :=
  url_new_http_https "example.com".toList "a/b".toList "8443".toList 8443
    (by decide) (by decide) (by decide) (by decide)

/-- C4: for every network locator, `follow` with a location starting with
`/` keeps the scheme and authority, takes the location as the path, and
clears `view_source`; with any other location it returns the result of
parsing the location as a full absolute locator. -/
theorem follow_resolution (vs : Bool) (hst : Str) (p : Nat) (pa loc : Str) :
    (loc.head? = some '/' →
       Url.follow (.Http vs (hst, p) pa) loc = some (.Http false (hst, p) loc) ∧
       Url.follow (.Https vs (hst, p) pa) loc = some (.Https false (hst, p) loc)) ∧
    (loc.head? ≠ some '/' →
       Url.follow (.Http vs (hst, p) pa) loc = Url.new loc ∧
       Url.follow (.Https vs (hst, p) pa) loc = Url.new loc) := by
  constructor
  · intro hl
    have hsw : startsWithChar '/' loc = true := by
      cases loc with
      | nil => simp at hl
      | cons x xs =>
        simp only [List.head?_cons, Option.some.injEq] at hl
        simp [startsWithChar, hl]
    simp [Url.follow, hsw]
  · intro hl
    have hsw : startsWithChar '/' loc = false := by
      cases loc with
      | nil => rfl
      | cons x xs =>
        simp only [List.head?_cons, ne_eq, Option.some.injEq] at hl
        simp [startsWithChar, hl]
    simp [Url.follow, hsw]

/-- Witness for C4 at the spec's example: `http://a.com/x` with location
`/y` yields `http://a.com/y`; a non-`/` location is reparsed. -/
theorem follow_resolution_witness :
    (Url.follow (.Http false ("a.com".toList, 80) "/x".toList) "/y".toList
        = some (.Http false ("a.com".toList, 80) "/y".toList) ∧
      Url.follow (.Https false ("a.com".toList, 80) "/x".toList) "/y".toList
        = some (.Https false ("a.com".toList, 80) "/y".toList)) ∧
    (Url.follow (.Http false ("a.com".toList, 80) "/x".toList) "http://b.com/z".toList
        = Url.new "http://b.com/z".toList ∧
      Url.follow (.Https false ("a.com".toList, 80) "/x".toList) "http://b.com/z".toList
        = Url.new "http://b.com/z".toList) :=
  ⟨(follow_resolution false "a.com".toList 80 "/x".toList "/y".toList).1 (by decide),
   (follow_resolution false "a.com".toList 80 "/x".toList "http://b.com/z".toList).2
     (by decide)⟩

/-- C10: an input that reads `data:` after the optional `view-source:`
marker but has no comma after the `data:` prefix makes `Url::new` fail
(the source panics on the comma `split_once` unwrap) instead of
producing a locator. -/
theorem url_new_data_missing_comma (url rest : Str)
    (hd : stripViewSource url = "data:".toList ++ rest) (hc : ',' ∉ rest) :
    Url.new url = none := by
  have hpre : ("data:".toList).isPrefixOf (stripViewSource url) = true := by
    rw [hd]; exact isPrefixOf_self_append _ _
  have hdrop : (stripViewSource url).drop 5 = rest := by
    rw [hd]; rfl
  simp only [Url.new]
  rw [hpre, if_pos rfl, hdrop, splitOnceChar_eq_none ',' rest hc]

/-- Witness for C10: `data:xyz` has no comma, so parsing fails. -/
theorem url_new_data_missing_comma_witness : Url.new "data:xyz".toList = none :=
  url_new_data_missing_comma "data:xyz".toList "xyz".toList (by decide) (by decide)

theorem utf8Len_ascii (s : Str) (h : ∀ c ∈ s, Char.utf8Size c = 1) :
    utf8Len s = s.length := by
  induction s with
  | nil => rfl
  | cons x xs ih =>
    have hx := h x (List.mem_cons_self _ _)
    have hxs := ih fun c hc => h c (List.mem_cons_of_mem _ hc)
    simp only [utf8Len, List.map_cons, List.sum_cons, List.length_cons, hx]
    simp only [utf8Len] at hxs
    omega

theorem showAux_append_skip (xs ys : Str) (t : Bool) (k : Nat) :
    showAux (xs ++ ys) t (xs.length + k) = showAux ys t k := by
  induction xs with
  | nil => simp
  | cons x xs ih =>
    have hl : (x :: xs).length + k = (xs.length + k) + 1 := by simp; omega
    rw [hl]
    show showAux (x :: (xs ++ ys)) t ((xs.length + k) + 1) = _
    simp only [showAux]
    exact ih

theorem showAux_skip_drop (k : Nat) (l : Str) (t : Bool) :
    showAux l t k = showAux (l.drop k) t 0 := by
  induction k generalizing l with
  | zero => simp
  | succ k ih =>
    cases l with
    | nil => rfl
    | cons x xs =>
      simp only [showAux, List.drop_succ_cons]
      exact ih xs

theorem showAux_amp (cs : Str) (t : Bool) :
    showAux ('&' :: cs) t 0 =
      (match read_entity ('&' :: cs) with
       | .ok j ent => ent ++ showAux cs t (j + 1)
       | .eof => '&' :: cs
       | .unsupported j => takeThroughSemi ('&' :: cs) ++ showAux cs t (j + 1)) := by
  simp [showAux]

/-- C2 (amended): an `&` whose text up to the next `;` is not in the
entity table emits the literal `&...;` text unchanged, but the scan then
resumes one character *after* the character following the `;` — the
single character directly after the `;` is consumed without being
emitted (for ASCII entity text), and only the characters after it are
processed normally. -/
theorem show_unknown_entity_amended (name post : Str) (t : Bool)
    (hsemi : ';' ∉ name) (hlt : name ≠ "lt".toList) (hgt : name ≠ "gt".toList)
    (hascii : ∀ c ∈ name, Char.utf8Size c = 1) :
    showAux ('&' :: (name ++ ';' :: post)) t 0
      = ('&' :: name) ++ ';' :: showAux (post.drop 1) t 0 := by
  have hnoamp : ';' ∉ ('&' :: name) := by
    simp only [List.mem_cons]
    rintro (h | h)
    · exact absurd h (by decide)
    · exact hsemi h
  have hsplit : splitOnceChar ';' ('&' :: (name ++ ';' :: post))
      = some ('&' :: name, post) :=
    splitOnceChar_append ';' ('&' :: name) post hnoamp
  have hlen : utf8Len ('&' :: name) = name.length + 1 := by
    have h1 : utf8Len ('&' :: name) = Char.utf8Size '&' + utf8Len name := by
      simp [utf8Len]
    rw [h1, utf8Len_ascii name hascii, show Char.utf8Size '&' = 1 from by decide]
    omega
  have hent : read_entity ('&' :: (name ++ ';' :: post))
      = .unsupported (name.length + 1) := by
    simp only [read_entity, hsplit, hlen]
    have hdrop : ('&' :: name).drop 1 = name := rfl
    rw [hdrop, if_neg hlt, if_neg hgt]
  have htk : takeThroughSemi ('&' :: (name ++ ';' :: post)) = ('&' :: name) ++ [';'] := by
    simp only [takeThroughSemi, hsplit]
  have hskip : showAux (name ++ ';' :: post) t (name.length + 1 + 1)
      = showAux (post.drop 1) t 0 := by
    have h2 : name.length + 1 + 1 = name.length + 2 := rfl
    rw [h2, showAux_append_skip name (';' :: post) t 2]
    show showAux (';' :: post) t (1 + 1) = _
    simp only [showAux]
    exact showAux_skip_drop 1 post t
  rw [showAux_amp, hent]
  simp only [htk, hskip]
  simp

/-- Witness for the amended C2 with the spec's `&unknown;` entity: the
character `a` directly after the `;` is skipped and only `b` is still
rendered. -/
theorem show_unknown_entity_amended_witness :
    showAux ('&' :: ("unknown".toList ++ ';' :: "ab".toList)) false 0
      = ('&' :: "unknown".toList) ++ ';' :: showAux ("ab".toList.drop 1) false 0 :=
  show_unknown_entity_amended "unknown".toList "ab".toList false
    (by decide) (by decide) (by decide) (by decide)

/-- C2 (counterexample): on input `&unknown;ab` the render emits
`&unknown;b` — the `a` directly after the `;` is dropped, so the
characters following the `;` are *not* all processed normally and the
surrounding text is not intact, contrary to the claim. -/
theorem show_unknown_entity_drops_next_char :
    showBody "&unknown;ab".toList = "&unknown;b".toList ∧
    showBody "&unknown;ab".toList ≠ "&unknown;ab".toList := by
  exact ⟨by decide, by decide⟩

/-- C3: for every well-formed response (parsable status line, parsable
headers, no forbidden encodings, a valid `content-length` covered by the
available bytes), a numeric status in {301, 302, 303, 307, 308} makes
response parsing require a `location` header (failing with
`MissingLocation` when absent) and return `Redirect(location)`, while any
other status decodes the body as UTF-8 (failing with `InvalidEncoding`
when the bytes are invalid) and returns `Ok(body)`. -/
theorem read_response_classification (sl : Str) (status : Nat) (hls : List Str)
    (hdrs : List (Str × Str)) (body : List Nat) (n : Nat) (clv : Str)
    (hst : parseStatus sl = some status)
    (hh : processHeaders hls [] = some hdrs)
    (hte : containsKey hdrs "transfer-encoding".toList = false)
    (hce : containsKey hdrs "content-encoding".toList = false)
    (hcl : lookupH hdrs "content-length".toList = some clv)
    (hn : parseUsize clv = some n)
    (hlen : n ≤ body.length) :
    read_response sl hls body =
      (if status = 301 ∨ status = 302 ∨ status = 303 ∨ status = 307 ∨ status = 308 then
        match lookupH hdrs "location".toList with
        | none => .error .MissingLocation
        | some loc => .ok (.Redirect loc)
      else
        match utf8Decode (body.take n) with
        | none => .error .InvalidEncoding
        | some s => .ok (.Ok s)) := by
  have hbl : ¬ body.length < n := by omega
  simp only [read_response, hst, hh, hte, hce, hcl, hn, Bool.false_eq_true, if_false,
    hbl, Response.is_redirect]
  simp

/-- Witness for C3: a 301 with a `Location` header yields `Redirect`,
and a 200 with a UTF-8 body yields `Ok`. -/
theorem read_response_classification_witness :
    read_response "HTTP/1.1 301 Moved".toList
        ["Content-Length: 0".toList, "Location: /x".toList, "".toList] []
      = .ok (.Redirect "/x".toList) ∧
    read_response "HTTP/1.1 200 OK".toList
        ["Content-Length: 2".toList, "".toList] [104, 105]
      = .ok (.Ok "hi".toList) := by
  constructor
  · have h := read_response_classification "HTTP/1.1 301 Moved".toList 301
      ["Content-Length: 0".toList, "Location: /x".toList, "".toList]
      [("content-length".toList, "0".toList), ("location".toList, "/x".toList)]
      [] 0 "0".toList (by decide) (by decide) (by decide) (by decide) (by decide)
      (by decide) (by decide)
    simpa using h
  · have h := read_response_classification "HTTP/1.1 200 OK".toList 200
      ["Content-Length: 2".toList, "".toList]
      [("content-length".toList, "2".toList)]
      [104, 105] 2 "2".toList (by decide) (by decide) (by decide) (by decide) (by decide)
      (by decide) (by decide)
    have hd : utf8Decode ([104, 105].take 2) = some "hi".toList := by decide
    simpa [hd] using h

/-- C7: whenever the parsed headers contain `transfer-encoding` or
`content-encoding` (names are lower-cased while reading, so the match is
case-insensitive), response parsing fails with `UnsupportedEncoding`
regardless of the status code and of any other headers, and no `Ok` or
`Redirect` response is produced. -/
theorem read_response_unsupported_encoding (sl : Str) (status : Nat)
    (hls : List Str) (hdrs : List (Str × Str)) (body : List Nat)
    (hst : parseStatus sl = some status)
    (hh : processHeaders hls [] = some hdrs)
    (henc : containsKey hdrs "transfer-encoding".toList = true ∨
      containsKey hdrs "content-encoding".toList = true) :
    read_response sl hls body = .error .UnsupportedEncoding := by
  simp only [read_response, hst, hh]
  by_cases hte : containsKey hdrs "transfer-encoding".toList = true
  · rw [hte]
    simp
  · have hte2 : containsKey hdrs "transfer-encoding".toList = false := by
      simpa using hte
    have hce2 : containsKey hdrs "content-encoding".toList = true := by
      rcases henc with h | h
      · exact absurd h hte
      · exact h
    rw [hte2, hce2]
    simp

/-- Witness for C7: `Transfer-Encoding: chunked` (upper-case on the
wire) makes parsing fail with `UnsupportedEncoding` even for a 200 with
other headers present. -/
theorem read_response_unsupported_encoding_witness :
    read_response "HTTP/1.1 200 OK".toList
        ["Transfer-Encoding: chunked".toList, "Content-Length: 0".toList, "".toList] []
      = .error .UnsupportedEncoding :=
  read_response_unsupported_encoding "HTTP/1.1 200 OK".toList 200
    ["Transfer-Encoding: chunked".toList, "Content-Length: 0".toList, "".toList]
    [("transfer-encoding".toList, "chunked".toList),
      ("content-length".toList, "0".toList)]
    [] (by decide) (by decide) (Or.inl (by decide))

theorem cacheLookup_mem (m : List ((Str × Nat) × Nat)) (a : Str × Nat) (t : Nat)
    (h : cacheLookup m a = some t) : (a, t) ∈ m := by
  induction m with
  | nil => simp [cacheLookup] at h
  | cons p ps ih =>
    obtain ⟨q, s⟩ := p
    simp only [cacheLookup] at h
    by_cases hp : q = a
    · rw [if_pos hp] at h
      simp only [Option.some.injEq] at h
      subst hp
      subst h
      exact List.mem_cons_self _ _
    · rw [if_neg hp] at h
      exact List.mem_cons_of_mem _ (ih h)

theorem cacheContains_lookup (m : List ((Str × Nat) × Nat)) (a : Str × Nat)
    (h : cacheContains m a = true) : ∃ t, cacheLookup m a = some t := by
  induction m with
  | nil => simp [cacheContains] at h
  | cons p ps ih =>
    by_cases hp : p.1 = a
    · exact ⟨p.2, by simp [cacheLookup, hp]⟩
    · simp only [cacheContains, List.any_cons, Bool.or_eq_true, decide_eq_true_eq] at h
      rcases h with h | h
      · exact absurd h hp
      · obtain ⟨t, ht⟩ := ih h
        exact ⟨t, by simp [cacheLookup, hp, ht]⟩

theorem cacheLookup_none (m : List ((Str × Nat) × Nat)) (a : Str × Nat)
    (h : cacheContains m a = false) : cacheLookup m a = none := by
  induction m with
  | nil => rfl
  | cons p ps ih =>
    simp only [cacheContains, List.any_cons, Bool.or_eq_false_iff,
      decide_eq_false_iff_not] at h
    simp [cacheLookup, h.1, ih h.2]

theorem cacheLookup_append_self (m : List ((Str × Nat) × Nat)) (a : Str × Nat)
    (t : Nat) (h : cacheLookup m a = none) :
    cacheLookup (m ++ [(a, t)]) a = some t := by
  induction m with
  | nil => simp [cacheLookup]
  | cons p ps ih =>
    by_cases hp : p.1 = a
    · simp [cacheLookup, if_pos hp] at h
    · simp only [cacheLookup, if_neg hp] at h
      simp [cacheLookup, if_neg hp, ih h]

theorem distinct_ids (m : List ((Str × Nat) × Nat))
    (hnd : (m.map Prod.snd).Nodup) (a1 a2 : Str × Nat) (t : Nat)
    (h1 : (a1, t) ∈ m) (h2 : (a2, t) ∈ m) : a1 = a2 := by
  induction m with
  | nil => simp at h1
  | cons p ps ih =>
    simp only [List.map_cons, List.nodup_cons] at hnd
    rcases List.mem_cons.1 h1 with he1 | hm1 <;> rcases List.mem_cons.1 h2 with he2 | hm2
    · have h12 : (a1, t) = (a2, t) := he1.trans he2.symm
      exact (Prod.ext_iff.1 h12).1
    · exfalso
      apply hnd.1
      have ht : t ∈ ps.map Prod.snd := List.mem_map_of_mem Prod.snd hm2
      rw [← he1]
      exact ht
    · exfalso
      apply hnd.1
      have ht : t ∈ ps.map Prod.snd := List.mem_map_of_mem Prod.snd hm1
      rw [← he2]
      exact ht
    · exact ih hnd.2 hm1 hm2

theorem contains_false_fst (m : List ((Str × Nat) × Nat)) (a : Str × Nat)
    (h : cacheContains m a = false) : ∀ p ∈ m, p.1 ≠ a := by
  simp only [cacheContains, List.any_eq_false, decide_eq_true_eq] at h
  exact h

theorem reader_ne_of_other_addr (c : RequestContext) (hwf : c.wf)
    (u2 : Url) (a2 a : Str × Nat) (t t2 : Nat) (c3 : RequestContext)
    (ha2 : u2.addr? = some a2) (hne : a2 ≠ a)
    (hlk : cacheLookup c.inner a = some t)
    (hr : c.reader u2 = some (t2, c3)) : t2 ≠ t := by
  simp only [RequestContext.reader, ha2] at hr
  by_cases hc2 : cacheContains c.inner a2 = true
  · simp only [hc2, if_pos] at hr
    obtain ⟨t2', hlk2, heq⟩ := Option.map_eq_some'.1 hr
    have ht2 : t2' = t2 := congrArg Prod.fst heq
    subst ht2
    intro habs
    rw [habs] at hlk2
    exact hne (distinct_ids c.inner hwf.2.2 a2 a t
      (cacheLookup_mem _ _ _ hlk2) (cacheLookup_mem _ _ _ hlk))
  · have hc2f : cacheContains c.inner a2 = false := by simpa using hc2
    simp only [hc2f, Bool.false_eq_true, if_false, Option.some.injEq] at hr
    have ht2 : t2 = c.next := (congrArg Prod.fst hr).symm
    have hlt : t < c.next := hwf.1 (a, t) (cacheLookup_mem _ _ _ hlk)
    omega

/-- C8: within one cache instance the connection cache holds at most one
transport per authority: the first lookup for an authority builds and
inserts a fresh transport, every later lookup for an equal authority
returns that same cached transport without creating a new one (the state
is unchanged), and lookups for a different authority always yield a
distinct transport. -/
theorem request_context_cache_spec (ctx : RequestContext) (u : Url) (a : Str × Nat)
    (ha : u.addr? = some a) (hwf : ctx.wf) :
    ∃ t ctx2,
      ctx.reader u = some (t, ctx2) ∧
      ctx2.wf ∧
      cacheLookup ctx2.inner a = some t ∧
      ctx2.reader u = some (t, ctx2) ∧
      (cacheContains ctx.inner a = false →
        t = ctx.next ∧ ctx2.inner = ctx.inner ++ [(a, t)]) ∧
      (cacheContains ctx.inner a = true → ctx2 = ctx) ∧
      (∀ u2 a2 t2 ctx3, u2.addr? = some a2 → a2 ≠ a →
        ctx2.reader u2 = some (t2, ctx3) → t2 ≠ t) := by
  by_cases hc : cacheContains ctx.inner a = true
  · obtain ⟨t, hlk⟩ := cacheContains_lookup _ _ hc
    have hrd : ctx.reader u = some (t, ctx) := by
      simp only [RequestContext.reader, ha, hc, if_pos, hlk, Option.map_some']
    refine ⟨t, ctx, hrd, hwf, hlk, hrd, ?_, fun _ => rfl, ?_⟩
    · intro hfalse
      rw [hc] at hfalse
      exact absurd hfalse (by decide)
    · intro u2 a2 t2 ctx3 ha2 hne hr2
      exact reader_ne_of_other_addr ctx hwf u2 a2 a t t2 ctx3 ha2 hne hlk hr2
  · have hcf : cacheContains ctx.inner a = false := by simpa using hc
    have hlknone : cacheLookup ctx.inner a = none := cacheLookup_none _ _ hcf
    have hrd : ctx.reader u
        = some (ctx.next, ⟨ctx.inner ++ [(a, ctx.next)], ctx.next + 1⟩) := by
      simp only [RequestContext.reader, ha, hcf, Bool.false_eq_true, if_false]
    have hlk2 : cacheLookup (ctx.inner ++ [(a, ctx.next)]) a = some ctx.next :=
      cacheLookup_append_self _ _ _ hlknone
    have hwf2 : RequestContext.wf ⟨ctx.inner ++ [(a, ctx.next)], ctx.next + 1⟩ := by
      refine ⟨?_, ?_, ?_⟩
      · intro p hp
        rcases List.mem_append.1 hp with hp | hp
        · have := hwf.1 p hp
          show p.2 < ctx.next + 1
          omega
        · simp only [List.mem_singleton] at hp
          subst hp
          show ctx.next < ctx.next + 1
          omega
      · simp only [List.map_append, List.map_cons, List.map_nil]
        rw [List.nodup_append]
        refine ⟨hwf.2.1, List.nodup_singleton _, ?_⟩
        intro x hx hxs
        simp only [List.mem_singleton] at hxs
        subst hxs
        obtain ⟨p, hp, hpa⟩ := List.mem_map.1 hx
        exact contains_false_fst _ _ hcf p hp hpa
      · simp only [List.map_append, List.map_cons, List.map_nil]
        rw [List.nodup_append]
        refine ⟨hwf.2.2, List.nodup_singleton _, ?_⟩
        intro x hx hxs
        simp only [List.mem_singleton] at hxs
        subst hxs
        obtain ⟨p, hp, hpa⟩ := List.mem_map.1 hx
        have := hwf.1 p hp
        omega
    have hcont2 : cacheContains (ctx.inner ++ [(a, ctx.next)]) a = true := by
      simp [cacheContains, List.any_append]
    have hrd2 : RequestContext.reader ⟨ctx.inner ++ [(a, ctx.next)], ctx.next + 1⟩ u
        = some (ctx.next, ⟨ctx.inner ++ [(a, ctx.next)], ctx.next + 1⟩) := by
      simp only [RequestContext.reader, ha, hcont2, if_pos, hlk2, Option.map_some']
    refine ⟨ctx.next, ⟨ctx.inner ++ [(a, ctx.next)], ctx.next + 1⟩, hrd, hwf2, hlk2,
      hrd2, fun _ => ⟨rfl, rfl⟩, ?_, ?_⟩
    · intro habs
      rw [hcf] at habs
      exact absurd habs (by decide)
    · intro u2 a2 t2 ctx3 ha2 hne hr2
      exact reader_ne_of_other_addr _ hwf2 u2 a2 a ctx.next t2 ctx3 ha2 hne hlk2 hr2

/-- Witness for C8 on an empty cache and the authority `("h", 80)`. -/
theorem request_context_cache_spec_witness :
    ∃ t ctx2,
      RequestContext.reader ⟨[], 0⟩ (.Http false ("h".toList, 80) "/".toList)
          = some (t, ctx2) ∧
      ctx2.wf ∧
      cacheLookup ctx2.inner ("h".toList, 80) = some t ∧
      RequestContext.reader ctx2 (.Http false ("h".toList, 80) "/".toList)
          = some (t, ctx2) ∧
      (cacheContains [] ("h".toList, 80) = false →
        t = 0 ∧ ctx2.inner = [] ++ [(("h".toList, 80), t)]) ∧
      (cacheContains [] ("h".toList, 80) = true → ctx2 = ⟨[], 0⟩) ∧
      (∀ u2 a2 t2 ctx3, u2.addr? = some a2 → a2 ≠ ("h".toList, 80) →
        RequestContext.reader ctx2 u2 = some (t2, ctx3) → t2 ≠ t) :=
  request_context_cache_spec ⟨[], 0⟩ (.Http false ("h".toList, 80) "/".toList)
    ("h".toList, 80) rfl (by decide)

theorem loadLoop_ok (resp : Url → Response) (vs : Bool) (head : Url)
    (path : List Url) (body : Str) (h : resp head = .Ok body) :
    loadLoop resp vs head path
      = if vs then .Sourced (show_source body) else .Shown (showBody body) := by
  rw [loadLoop, h]

theorem loadLoop_aborted (resp : Url → Response) (vs : Bool) (head : Url)
    (path : List Url) (loc : Str) (h : resp head = .Redirect loc)
    (hf : head.follow loc = none) :
    loadLoop resp vs head path = .Aborted := by
  rw [loadLoop]
  simp [h, hf]

theorem loadLoop_cycle (resp : Url → Response) (vs : Bool) (head : Url)
    (path : List Url) (loc : Str) (f : Url) (h : resp head = .Redirect loc)
    (hf : head.follow loc = some f)
    (hm : path.any (fun u => urlEq u f) = true) :
    loadLoop resp vs head path = .RedirectCycle := by
  rw [loadLoop]
  simp [h, hf, hm]

theorem loadLoop_step (resp : Url → Response) (vs : Bool) (head : Url)
    (path : List Url) (loc : Str) (f : Url) (h : resp head = .Redirect loc)
    (hf : head.follow loc = some f)
    (hm : path.any (fun u => urlEq u f) = false)
    (hlen : path.length + 1 < MAX_REDIRECTS) :
    loadLoop resp vs head path = loadLoop resp vs f (path ++ [f]) := by
  conv_lhs => rw [loadLoop]
  simp [h, hf, hm, hlen]

theorem loadLoop_toomany (resp : Url → Response) (vs : Bool) (head : Url)
    (path : List Url) (loc : Str) (f : Url) (h : resp head = .Redirect loc)
    (hf : head.follow loc = some f)
    (hm : path.any (fun u => urlEq u f) = false)
    (hlen : ¬ path.length + 1 < MAX_REDIRECTS) :
    loadLoop resp vs head path = .TooManyRedirects := by
  rw [loadLoop]
  simp [h, hf, hm, hlen]

theorem loadLoop_chain_sim (us : List Url) : ∀ (resp : Url → Response) (vs : Bool)
    (path : List Url) (head : Url), RedirectChain resp (head :: us) →
    (path ++ us).Pairwise (fun a b => urlEq a b = false) →
    path.length + us.length < MAX_REDIRECTS →
    loadLoop resp vs head path = loadLoop resp vs (us.getLastD head) (path ++ us) := by
  induction us with
  | nil =>
    intro resp vs path head _ _ _
    simp [List.getLastD]
  | cons v us ih =>
    intro resp vs path head hch hnd hlen
    obtain ⟨⟨loc, hresp, hfol⟩, hch2⟩ := hch
    have hcross := (List.pairwise_append.1 hnd).2.2
    have hv : path.any (fun u => urlEq u v) = false := by
      rw [List.any_eq_false]
      intro u hu
      rw [hcross u hu v (List.mem_cons_self _ _)]
      simp
    have hstep := loadLoop_step resp vs head path loc v hresp hfol hv (by
      simp only [List.length_cons] at hlen
      omega)
    rw [hstep]
    have hnd2 : ((path ++ [v]) ++ us).Pairwise (fun a b => urlEq a b = false) := by
      rw [List.append_assoc]
      exact hnd
    have hlen2 : (path ++ [v]).length + us.length < MAX_REDIRECTS := by
      simp only [List.length_append, List.length_cons, List.length_nil] at hlen ⊢
      omega
    have := ih resp vs (path ++ [v]) v hch2 hnd2 hlen2
    rw [this, List.append_assoc, List.getLastD_cons]
    rfl

theorem loadLoop_chain_toomany (us : List Url) : ∀ (resp : Url → Response) (vs : Bool)
    (path : List Url) (head : Url), RedirectChain resp (head :: us) →
    (path ++ us).Pairwise (fun a b => urlEq a b = false) →
    path.length + us.length = MAX_REDIRECTS → us ≠ [] →
    loadLoop resp vs head path = .TooManyRedirects := by
  induction us with
  | nil =>
    intro _ _ _ _ _ _ _ habs
    exact absurd rfl habs
  | cons v us ih =>
    intro resp vs path head hch hnd hlen _
    obtain ⟨⟨loc, hresp, hfol⟩, hch2⟩ := hch
    have hcross := (List.pairwise_append.1 hnd).2.2
    have hv : path.any (fun u => urlEq u v) = false := by
      rw [List.any_eq_false]
      intro u hu
      rw [hcross u hu v (List.mem_cons_self _ _)]
      simp
    by_cases hus : us = []
    · subst hus
      refine loadLoop_toomany resp vs head path loc v hresp hfol hv ?_
      simp only [List.length_cons, List.length_nil] at hlen
      omega
    · have husl : 0 < us.length := List.length_pos.2 hus
      have hstep := loadLoop_step resp vs head path loc v hresp hfol hv (by
        simp only [List.length_cons] at hlen
        omega)
      rw [hstep]
      have hnd2 : ((path ++ [v]) ++ us).Pairwise (fun a b => urlEq a b = false) := by
        rw [List.append_assoc]
        exact hnd
      have hlen2 : (path ++ [v]).length + us.length = MAX_REDIRECTS := by
        simp only [List.length_append, List.length_cons, List.length_nil] at hlen ⊢
        omega
      exact ih resp vs (path ++ [v]) v hch2 hnd2 hlen2 hus

theorem loadLoop_cases (n : Nat) : ∀ (resp : Url → Response) (vs : Bool) (head : Url)
    (path : List Url), MAX_REDIRECTS - path.length ≤ n →
    (∃ body, loadLoop resp vs head path
        = if vs then .Sourced (show_source body) else .Shown (showBody body)) ∨
    loadLoop resp vs head path = .RedirectCycle ∨
    loadLoop resp vs head path = .TooManyRedirects ∨
    loadLoop resp vs head path = .Aborted := by
  induction n with
  | zero =>
    intro resp vs head path hn
    rcases hr : resp head with body | loc
    · exact Or.inl ⟨body, loadLoop_ok resp vs head path body hr⟩
    · rcases hf : Url.follow head loc with _ | f
      · exact Or.inr (Or.inr (Or.inr (loadLoop_aborted resp vs head path loc hr hf)))
      · by_cases hm : path.any (fun u => urlEq u f) = true
        · exact Or.inr (Or.inl (loadLoop_cycle resp vs head path loc f hr hf hm))
        · have hmf : path.any (fun u => urlEq u f) = false := by simpa using hm
          have hlen : ¬ path.length + 1 < MAX_REDIRECTS := by
            simp only [MAX_REDIRECTS] at hn ⊢
            omega
          exact Or.inr (Or.inr (Or.inl
            (loadLoop_toomany resp vs head path loc f hr hf hmf hlen)))
  | succ n ih =>
    intro resp vs head path hn
    rcases hr : resp head with body | loc
    · exact Or.inl ⟨body, loadLoop_ok resp vs head path body hr⟩
    · rcases hf : Url.follow head loc with _ | f
      · exact Or.inr (Or.inr (Or.inr (loadLoop_aborted resp vs head path loc hr hf)))
      · by_cases hm : path.any (fun u => urlEq u f) = true
        · exact Or.inr (Or.inl (loadLoop_cycle resp vs head path loc f hr hf hm))
        · have hmf : path.any (fun u => urlEq u f) = false := by simpa using hm
          by_cases hlen : path.length + 1 < MAX_REDIRECTS
          · rw [loadLoop_step resp vs head path loc f hr hf hmf hlen]
            refine ih resp vs f (path ++ [f]) ?_
            simp only [List.length_append, List.length_cons, List.length_nil] at hn ⊢
            omega
          · exact Or.inr (Or.inr (Or.inl
              (loadLoop_toomany resp vs head path loc f hr hf hmf hlen)))

/-- C9: when a `load` call ends with an `Ok(body)` and renders, the
choice between the tag-stripped renderer (`show`) and the line-numbered
source renderer (`show_source`) is determined solely by the
`view_source` flag of the original input locator captured before any
redirect was followed; no redirect in the chain changes the mode. -/
theorem load_render_mode (resp : Url → Response) (url : Url) (s : Str) :
    (load resp url = .Shown s → url.view_source = false ∧ ∃ b, s = showBody b) ∧
    (load resp url = .Sourced s → url.view_source = true ∧ ∃ b, s = show_source b) := by
  have hc := loadLoop_cases MAX_REDIRECTS resp url.view_source url [url] (by omega)
  constructor <;> intro hs <;> unfold load at hs
  · rcases hc with ⟨body, hb⟩ | hb | hb | hb
    · have hbs := hb.symm.trans hs
      rcases hvs : url.view_source with _ | _
      · rw [hvs] at hbs
        simp only [Bool.false_eq_true, if_false, LoadResult.Shown.injEq] at hbs
        exact ⟨rfl, body, hbs.symm⟩
      · rw [hvs] at hbs
        simp at hbs
    · rw [hb] at hs
      simp at hs
    · rw [hb] at hs
      simp at hs
    · rw [hb] at hs
      simp at hs
  · rcases hc with ⟨body, hb⟩ | hb | hb | hb
    · have hbs := hb.symm.trans hs
      rcases hvs : url.view_source with _ | _
      · rw [hvs] at hbs
        simp at hbs
      · rw [hvs] at hbs
        simp only [if_true, LoadResult.Sourced.injEq] at hbs
        exact ⟨rfl, body, hbs.symm⟩
    · rw [hb] at hs
      simp at hs
    · rw [hb] at hs
      simp at hs
    · rw [hb] at hs
      simp at hs

/-- Witness for C9: with a `view_source` locator the output is the
line-numbered rendering, and the theorem recovers the flag from it. -/
theorem load_render_mode_witness :
    Url.view_source (.Http true ("h".toList, 80) "/".toList) = true ∧
    ∃ b, show_source "x".toList = show_source b :=
  (load_render_mode (fun _ => .Ok "x".toList) (.Http true ("h".toList, 80) "/".toList)
    (show_source "x".toList)).2 (by simp [load, loadLoop, Url.view_source])

/-- C6: during one `load` call, when a fetch answers with a redirect
whose follower is equal — under the source's locator equality `urlEq`,
which compares `PathBuf` paths by components — to any locator already
anywhere in the visited sequence (which starts with the original
locator), the loop fails with `RedirectCycle` before fetching that
locator — the result holds for every oracle answering the current head
with that redirect; otherwise the follower is appended to the visited
sequence and the loop continues from it. -/
theorem load_cycle_detection (resp : Url → Response) (vs : Bool) (head : Url)
    (path : List Url) (loc : Str) (f : Url)
    (hr : resp head = .Redirect loc) (hf : head.follow loc = some f) :
    ((∃ u ∈ path, urlEq u f = true) → loadLoop resp vs head path = .RedirectCycle) ∧
    ((∀ u ∈ path, urlEq u f = false) → path.length + 1 < MAX_REDIRECTS →
      loadLoop resp vs head path = loadLoop resp vs f (path ++ [f])) := by
  constructor
  · intro hm
    refine loadLoop_cycle resp vs head path loc f hr hf ?_
    rw [List.any_eq_true]
    obtain ⟨u, hu, he⟩ := hm
    exact ⟨u, hu, he⟩
  · intro hm hlen
    refine loadLoop_step resp vs head path loc f hr hf ?_ hlen
    rw [List.any_eq_false]
    intro u hu
    rw [hm u hu]
    simp

/-- Witness for C6: with `/x` already visited, a redirect to `/x/` —
string-distinct but component-equal — stops with `RedirectCycle`, while
a redirect to `/y` continues the loop. -/
theorem load_cycle_detection_witness :
    (loadLoop (fun _ => Response.Redirect "/x/".toList) false
        (.Http false ("h".toList, 80) "/x".toList)
        [.Http false ("h".toList, 80) "/x".toList] = .RedirectCycle) ∧
    (loadLoop (fun _ => Response.Redirect "/y".toList) false
        (.Http false ("h".toList, 80) "/x".toList)
        [.Http false ("h".toList, 80) "/x".toList]
      = loadLoop (fun _ => Response.Redirect "/y".toList) false
        (.Http false ("h".toList, 80) "/y".toList)
        ([.Http false ("h".toList, 80) "/x".toList]
          ++ [.Http false ("h".toList, 80) "/y".toList])) :=
  ⟨(load_cycle_detection (fun _ => Response.Redirect "/x/".toList) false
      (.Http false ("h".toList, 80) "/x".toList)
      [.Http false ("h".toList, 80) "/x".toList] "/x/".toList
      (.Http false ("h".toList, 80) "/x/".toList) rfl (by decide)).1 (by decide),
   (load_cycle_detection (fun _ => Response.Redirect "/y".toList) false
      (.Http false ("h".toList, 80) "/x".toList)
      [.Http false ("h".toList, 80) "/x".toList] "/y".toList
      (.Http false ("h".toList, 80) "/y".toList) rfl (by decide)).2
      (by decide) (by decide)⟩

/-- C1 (amended): with the visited sequence including the original
locator and `MAX_REDIRECTS = 10` bounding its length, a chain of exactly
9 redirects — pairwise distinct under the source's locator equality
`urlEq` (paths compared by `PathBuf` components) — without completion
fails with `TooManyRedirects` (the 9th follower is appended, the visited
sequence reaches length 10 and the bound trips), while any such chain of
at most 8 redirects ending in an `Ok` body is followed without that
error and renders. -/
theorem load_redirect_bound (resp : Url → Response) (u0 : Url) (us : List Url)
    (hch : RedirectChain resp (u0 :: us))
    (hnd : (u0 :: us).Pairwise (fun a b => urlEq a b = false)) :
    (us.length = 9 → load resp u0 = .TooManyRedirects) ∧
    (us.length ≤ 8 → ∀ body, resp (us.getLastD u0) = .Ok body →
      load resp u0 = if u0.view_source then .Sourced (show_source body)
        else .Shown (showBody body)) := by
  constructor
  · intro h9
    have hne : us ≠ [] := by
      intro he
      rw [he] at h9
      simp at h9
    have := loadLoop_chain_toomany us resp u0.view_source [u0] u0 hch hnd
      (by simp [h9, MAX_REDIRECTS]) hne
    exact this
  · intro h8 body hok
    have hsim := loadLoop_chain_sim us resp u0.view_source [u0] u0 hch hnd (by
      simp only [List.length_cons, List.length_nil, MAX_REDIRECTS]
      omega)
    have hfin := loadLoop_ok resp u0.view_source (us.getLastD u0) ([u0] ++ us) body hok
    exact hsim.trans hfin

/-- C1 (counterexample): under `chainResp` the run from `chainUrl 0`
makes exactly 9 distinct redirects and the 10th locator would answer
`Ok`, yet `load` fails with `TooManyRedirects` — so a chain of fewer
than 10 redirects does raise the error, contrary to the claim that the
enforced maximum is 10 redirects. -/
theorem load_nine_redirects_too_many :
    load chainResp (chainUrl 0) = .TooManyRedirects ∧
    chainResp (chainUrl 9) = .Ok "done".toList ∧
    (List.map chainUrl [0, 1, 2, 3, 4, 5, 6, 7, 8, 9]).Pairwise
      (fun a b => urlEq a b = false) := by
  refine ⟨?_, by decide, by decide⟩
  have hch : RedirectChain chainResp (chainUrl 0 ::
      [chainUrl 1, chainUrl 2, chainUrl 3, chainUrl 4, chainUrl 5, chainUrl 6,
        chainUrl 7, chainUrl 8, chainUrl 9]) :=
    ⟨⟨'/' :: List.replicate 1 'a', by decide, by decide⟩,
     ⟨'/' :: List.replicate 2 'a', by decide, by decide⟩,
     ⟨'/' :: List.replicate 3 'a', by decide, by decide⟩,
     ⟨'/' :: List.replicate 4 'a', by decide, by decide⟩,
     ⟨'/' :: List.replicate 5 'a', by decide, by decide⟩,
     ⟨'/' :: List.replicate 6 'a', by decide, by decide⟩,
     ⟨'/' :: List.replicate 7 'a', by decide, by decide⟩,
     ⟨'/' :: List.replicate 8 'a', by decide, by decide⟩,
     ⟨'/' :: List.replicate 9 'a', by decide, by decide⟩,
     trivial⟩
  exact loadLoop_chain_toomany
    [chainUrl 1, chainUrl 2, chainUrl 3, chainUrl 4, chainUrl 5, chainUrl 6,
      chainUrl 7, chainUrl 8, chainUrl 9]
    chainResp (Url.view_source (chainUrl 0)) [chainUrl 0] (chainUrl 0)
    hch (by decide) (by decide) (by decide)

/-- Witness for the amended C1: a chain of 2 redirects (at most 8)
completes and renders through `show`. -/
theorem load_redirect_bound_witness :
    load chainResp2 (chainUrl 0) = .Shown (showBody "done".toList) := by
  have h := (load_redirect_bound chainResp2 (chainUrl 0) [chainUrl 1, chainUrl 2]
    ⟨⟨'/' :: List.replicate 1 'a', by decide, by decide⟩,
     ⟨'/' :: List.replicate 2 'a', by decide, by decide⟩,
     trivial⟩
    (by decide)).2 (by decide) "done".toList (by decide)
  simpa using h
